import Mathlib

/-!
Shallow embedding of the localization TP repository (TP2/EKFLocalization.py and
TP3/ParticleFilter.py) together with proofs about the embedded functions.

Modelling conventions:
* Python floats are modelled as exact numbers: `ℝ` where the code manipulates
  trigonometric quantities or `np.pi`, `ℚ` where the code only performs field
  arithmetic (resampling, weight bookkeeping, the EKF covariance update).
* Every call to the random generator (`np.random.uniform`, `np.random.choice`,
  `np.random.randint`, `np.random.multivariate_normal`) is modelled by passing
  the drawn value(s) as an explicit argument of the embedded function.
* Fallible operations (out-of-range indexing, `np.linalg.inv` on a singular
  matrix) return `Option`.
-/

/-- Embeds `angle_wrap` (identical in `TP2/EKFLocalization.py` lines 224-229 and
`TP3/ParticleFilter.py` lines 208-213): a single conditional correction by one
full turn. -/
noncomputable def angle_wrap (a : ℝ) : ℝ :=
  if a > Real.pi then a - 2 * Real.pi
  else if a < -Real.pi then a + 2 * Real.pi
  else a

/-- Embeds `tcomp` (`TP2/EKFLocalization.py` lines 233-246, identical in
`TP3/ParticleFilter.py` lines 217-230): Euler integration of a body-frame twist
`tbc` onto a pose `tab` over time step `dt`, with the heading wrapped.  The 2×2
rotation-matrix product of the source is written out componentwise. -/
noncomputable def tcomp (tab tbc : ℝ × ℝ × ℝ) (dt : ℝ) : ℝ × ℝ × ℝ :=
  (tab.1 + dt * (Real.cos tab.2.2 * tbc.1 - Real.sin tab.2.2 * tbc.2.1),
   tab.2.1 + dt * (Real.sin tab.2.2 * tbc.1 + Real.cos tab.2.2 * tbc.2.1),
   angle_wrap (tab.2.2 + dt * tbc.2.2))

namespace EKF

/-- Embeds the EKF `motion_model` (`TP2/EKFLocalization.py` lines 92-103):
deterministic propagation of pose `x` by control `u` over `dt_pred`, heading
wrapped after integration. -/
noncomputable def motion_model (x u : ℝ × ℝ × ℝ) (dt_pred : ℝ) : ℝ × ℝ × ℝ :=
  (x.1 + (u.1 * Real.cos x.2.2 - u.2.1 * Real.sin x.2.2) * dt_pred,
   x.2.1 + (u.1 * Real.sin x.2.2 + u.2.1 * Real.cos x.2.2) * dt_pred,
   angle_wrap (x.2.2 + u.2.2 * dt_pred))

end EKF

namespace PF

/-- Embeds the particle-filter `motion_model` (`TP3/ParticleFilter.py` lines
100-112).  The draw `w_k` of `np.random.multivariate_normal([0,0,0], QEst)` is
passed explicitly.  Note the source applies `angle_wrap` to the incoming
heading `theta` only, not to the integrated heading. -/
noncomputable def motion_model (x u_tilda : ℝ × ℝ × ℝ) (dt_pred : ℝ)
    (w_k : ℝ × ℝ × ℝ) : ℝ × ℝ × ℝ :=
  (x.1 + (u_tilda.1 + w_k.1) * Real.cos x.2.2 * dt_pred
       - (u_tilda.2.1 + w_k.2.1) * Real.sin x.2.2 * dt_pred,
   x.2.1 + (u_tilda.1 + w_k.1) * Real.sin x.2.2 * dt_pred
         + (u_tilda.2.1 + w_k.2.1) * Real.cos x.2.2 * dt_pred,
   angle_wrap x.2.2 + (u_tilda.2.2 + w_k.2.2) * dt_pred)

/-- Embeds the particle-filter `observation_model` (`TP3/ParticleFilter.py`
lines 116-134): range and wrapped bearing from a vehicle pose to landmark
`iFeature`.  The 2×M map array is modelled as a function from column index to
the landmark's coordinates; `atan2 dy dx` is the argument of `dx + i·dy`. -/
noncomputable def observation_model (xVeh : ℝ × ℝ × ℝ) (iFeature : ℕ)
    (Map : ℕ → ℝ × ℝ) : ℝ × ℝ :=
  let dx := (Map iFeature).1 - xVeh.1
  let dy := (Map iFeature).2 - xVeh.2.1
  (Real.sqrt (dx ^ 2 + dy ^ 2), angle_wrap ((⟨dx, dy⟩ : ℂ).arg - xVeh.2.2))

/-- Embeds the weighting and normalization block of the particle-filter main
loop (`TP3/ParticleFilter.py` lines 387-399).  When an observation `z` is
present, each particle's weight is multiplied by the Gaussian likelihood of its
innovation (bearing component wrapped); in all cases the weight vector is then
divided by its sum — the division is unconditional in the source. -/
noncomputable def weighting_step (REst : Matrix (Fin 2) (Fin 2) ℝ)
    (z : Option (ℝ × ℝ)) (iFeature : ℕ) (Map : ℕ → ℝ × ℝ)
    (xParticles : List (ℝ × ℝ × ℝ)) (wp : List ℝ) : List ℝ :=
  let wp1 := match z with
    | none => wp
    | some zv =>
      (xParticles.zip wp).map fun (pw : (ℝ × ℝ × ℝ) × ℝ) =>
        let zPred := observation_model pw.1 iFeature Map
        let innov : Fin 2 → ℝ := ![zv.1 - zPred.1, angle_wrap (zv.2 - zPred.2)]
        pw.2 * Real.exp (-0.5 * Matrix.dotProduct innov ((REst⁻¹).mulVec innov))
  wp1.map fun w => w / wp1.sum

/-- Running cumulative sums with accumulator `acc`, as `np.cumsum`. -/
def cumsum (acc : ℚ) : List ℚ → List ℚ
  | [] => []
  | x :: xs => (acc + x) :: cumsum (acc + x) xs

/-- The inner `while re_sample_id[ip] > w_cum[ind]: ind += 1` search of
`re_sampling`: `l` is the suffix of `w_cum` starting at absolute index `ind`;
the result is the first absolute index whose cumulative weight reaches
`target`.  `none` models the `IndexError` the source would raise if the search
ran off the end of the array. -/
def walkFrom (target : ℚ) : List ℚ → ℕ → Option ℕ
  | [], _ => none
  | c :: rest, ind =>
    if target > c then walkFrom target rest (ind + 1) else some ind

/-- The outer `for ip in range(nParticles)` loop of `re_sampling` building
`indexes`: one search per target value, each starting where the previous
stopped. -/
def buildIndexes (w_cum : List ℚ) : List ℚ → ℕ → Option (List ℕ)
  | [], _ => some []
  | t :: ts, ind =>
    match walkFrom t (w_cum.drop ind) ind with
    | none => none
    | some j => (buildIndexes w_cum ts j).map (fun rest => j :: rest)

/-- The fancy indexing `px[:, indexes]`; `none` models an out-of-range index. -/
def selectAll {α : Type} (px : List α) : List ℕ → Option (List α)
  | [] => some []
  | i :: is =>
    match px.get? i with
    | none => none
    | some p => (selectAll px is).map (fun rest => p :: rest)

/-- Embeds `re_sampling` (`TP3/ParticleFilter.py` lines 140-162), low-variance
systematic resampling.  `nParticles` is the global particle count; the draw
`r` of `np.random.uniform(0, 1/nParticles)` is passed explicitly.  The output
weights are `np.ones(pw.shape)` divided by their sum, i.e. `1/len(pw)` each. -/
def re_sampling {α : Type} (nParticles : ℕ) (px : List α) (pw : List ℚ)
    (r : ℚ) : Option (List α × List ℚ) :=
  let w_cum := cumsum 0 pw
  let re_sample_id :=
    (List.range nParticles).map (fun (ip : ℕ) => (ip : ℚ) / nParticles + r)
  match buildIndexes w_cum re_sample_id 0 with
  | none => none
  | some indexes =>
    match selectAll px indexes with
    | none => none
    | some px1 => some (px1, List.replicate pw.length (1 / (pw.length : ℚ)))

/-- Embeds `reallocation_resampling` (`TP3/ParticleFilter.py` lines 164-194).
`N` is the global `nParticles`.  The per-particle draws of
`np.random.uniform(0, 1/N)` taken in the light-weight branch are passed as
`us` (indexed by particle number `m`) and the draws of `np.random.choice(M)`
used for padding as `pads` (reduced modulo the particle count, since `choice`
only returns valid indices).  The source appends to `resampled_particles` and
`resampled_weights` in lockstep, modelled as one list of pairs split at the
end. -/
def reallocation_resampling {α : Type} [Inhabited α] (N : ℕ)
    (particles : List α) (weights : List ℚ) (us : ℕ → ℚ) (pads : ℕ → ℕ) :
    List α × List ℚ :=
  let main := (particles.zip weights).enum.flatMap
    (fun (mpw : ℕ × α × ℚ) =>
      let m := mpw.1
      let p := mpw.2.1
      let w := mpw.2.2
      if w ≥ 1 / (N : ℚ) then
        let NmT := (⌊(N : ℚ) * w⌋).toNat
        List.replicate NmT (p, w / (NmT : ℚ))
      else if w ≥ us m then [(p, 1 / (N : ℚ))]
      else [])
  let padded := main ++ (List.range (N - main.length)).map
    (fun j => (particles.getD (pads j % particles.length) default, 1 / (N : ℚ)))
  (padded.map Prod.fst, padded.map Prod.snd)

/-- Effective sample size `Neff = 1.0 / np.sum(wp**2)`
(`TP3/ParticleFilter.py` line 417). -/
def Neff (wp : List ℚ) : ℚ := 1 / (wp.map (fun w => w ^ 2)).sum

/-- Embeds the resample decision of the particle-filter main loop
(`TP3/ParticleFilter.py` lines 415-421): with `Nth = nParticles * theta_eff`,
resample — with `reallocation_resampling`, the branch active in the source —
exactly when `Neff < Nth`. -/
def resample_step {α : Type} [Inhabited α] (theta_eff : ℚ) (nParticles : ℕ)
    (xParticles : List α) (wp : List ℚ) (us : ℕ → ℚ) (pads : ℕ → ℕ) :
    List α × List ℚ :=
  if Neff wp < nParticles * theta_eff then
    reallocation_resampling nParticles xParticles wp us pads
  else (xParticles, wp)

end PF

/-- Models `np.random.randint(lo, hi)` (upper bound exclusive): the raw draw is
reduced into the half-open range `[lo, hi)`. -/
def np_random_randint (lo hi draw : ℕ) : ℕ := lo + draw % (hi - lo)

/-- Embeds the landmark-index selection of `Simulation.get_observation`
(`TP2/EKFLocalization.py` line 78, `TP3/ParticleFilter.py` line 84):
`iFeature = np.random.randint(0, self.Map.shape[1] - 1)` over a map of
`nLandmarks` columns. -/
def get_observation_iFeature (nLandmarks draw : ℕ) : ℕ :=
  np_random_randint 0 (nLandmarks - 1) draw

/-- Positive semi-definiteness of a rational matrix, stated by the quadratic
form. -/
def matPSD {n : ℕ} (A : Matrix (Fin n) (Fin n) ℚ) : Prop :=
  ∀ v : Fin n → ℚ, 0 ≤ Matrix.dotProduct v (A.mulVec v)

/-- The explicit 2×2 inverse, modelling `np.linalg.inv` on the innovation
covariance.  The source's `np.linalg.inv` raises `LinAlgError` on a singular
matrix; that case is cut off by the `det = 0` guard of `EKF.cov_update`. -/
def inv2 (A : Matrix (Fin 2) (Fin 2) ℚ) : Matrix (Fin 2) (Fin 2) ℚ :=
  A.det⁻¹ • Matrix.of ![![A 1 1, -(A 0 1)], ![-(A 1 0), A 0 0]]

namespace EKF

/-- Embeds the covariance part of the EKF measurement update
(`TP2/EKFLocalization.py` lines 326-327 and 347-348):
`S = REst + H PPred Hᵀ`, `K = PPred Hᵀ S⁻¹`, `PEst = (I - K H) PPred`,
then forced symmetric as `0.5 (PEst + PEstᵀ)`.  `none` models the
`LinAlgError` of `np.linalg.inv` when `S` is singular. -/
def cov_update (PPred : Matrix (Fin 3) (Fin 3) ℚ)
    (H : Matrix (Fin 2) (Fin 3) ℚ) (REst : Matrix (Fin 2) (Fin 2) ℚ) :
    Option (Matrix (Fin 3) (Fin 3) ℚ) :=
  let S := REst + H * PPred * H.transpose
  if S.det = 0 then none
  else
    let K := PPred * H.transpose * inv2 S
    let PEst := (1 - K * H) * PPred
    some ((1 / 2 : ℚ) • (PEst + PEst.transpose))

end EKF

/-- Values already in `[-π, π]` are fixed points of `angle_wrap`. -/
theorem angle_wrap_fix {a : ℝ} (h1 : -Real.pi ≤ a) (h2 : a ≤ Real.pi) :
    angle_wrap a = a := by
  unfold angle_wrap
  rw [if_neg (by linarith), if_neg (by linarith)]

/-- On `[-3π, 3π]` the single correction lands in `[-π, π]`. -/
theorem angle_wrap_mem {a : ℝ} (h1 : -(3 * Real.pi) ≤ a) (h2 : a ≤ 3 * Real.pi) :
    -Real.pi ≤ angle_wrap a ∧ angle_wrap a ≤ Real.pi := by
  unfold angle_wrap
  split_ifs with hgt hlt
  · constructor <;> linarith
  · constructor <;> linarith
  · constructor <;> linarith

/-- Claim C2 (corrected): for every `a ∈ [-3π, 3π]`, `angle_wrap a ∈ [-π, π]`. -/
theorem angle_wrap_range (a : ℝ) (h1 : -(3 * Real.pi) ≤ a) (h2 : a ≤ 3 * Real.pi) :
    -Real.pi ≤ angle_wrap a ∧ angle_wrap a ≤ Real.pi :=
  angle_wrap_mem h1 h2

/-- Claim C2, witness: the corrected statement applied at `a = 2π`. -/
theorem angle_wrap_range_witness :
    -Real.pi ≤ angle_wrap (2 * Real.pi) ∧ angle_wrap (2 * Real.pi) ≤ Real.pi :=
  angle_wrap_range (2 * Real.pi)
    (by have := Real.pi_pos; linarith) (by have := Real.pi_pos; linarith)

/-- Claim C2, counterexample to the original statement: `angle_wrap 10 > π`
(a single turn is not enough for `a = 10 > 3π`), and `angle_wrap (-π) = -π`
is not in the open-below interval `(-π, π]`. -/
theorem angle_wrap_range_cex :
    ¬ angle_wrap 10 ≤ Real.pi ∧ ¬ -Real.pi < angle_wrap (-Real.pi) := by
  have hlt : Real.pi < 3.15 := Real.pi_lt_d2
  have hgt : 3 < Real.pi := Real.pi_gt_three
  constructor
  · have h10 : angle_wrap 10 = 10 - 2 * Real.pi := by
      unfold angle_wrap
      rw [if_pos (by linarith)]
    rw [h10]
    intro h
    linarith
  · have hm : angle_wrap (-Real.pi) = -Real.pi := by
      unfold angle_wrap
      rw [if_neg (by linarith), if_neg (by linarith)]
    rw [hm]
    exact lt_irrefl _

/-- Claim C8 (corrected): `angle_wrap` is idempotent on `[-3π, 3π]`. -/
theorem angle_wrap_idem (a : ℝ) (h1 : -(3 * Real.pi) ≤ a) (h2 : a ≤ 3 * Real.pi) :
    angle_wrap (angle_wrap a) = angle_wrap a := by
  obtain ⟨hl, hr⟩ := angle_wrap_mem h1 h2
  exact angle_wrap_fix hl hr

/-- Claim C8, witness: idempotence applied at `a = 2π`. -/
theorem angle_wrap_idem_witness :
    angle_wrap (angle_wrap (2 * Real.pi)) = angle_wrap (2 * Real.pi) :=
  angle_wrap_idem (2 * Real.pi)
    (by have := Real.pi_pos; linarith) (by have := Real.pi_pos; linarith)

/-- Claim C8, counterexample to the original statement: idempotence fails at
`a = 10`, because the first application leaves `10 - 2π > π`. -/
theorem angle_wrap_idem_cex :
    angle_wrap (angle_wrap 10) ≠ angle_wrap 10 := by
  have hlt : Real.pi < 3.15 := Real.pi_lt_d2
  have hgt : 3 < Real.pi := Real.pi_gt_three
  have h10 : angle_wrap 10 = 10 - 2 * Real.pi := by
    unfold angle_wrap
    rw [if_pos (by linarith)]
  have h10b : angle_wrap (10 - 2 * Real.pi) = 10 - 2 * Real.pi - 2 * Real.pi := by
    unfold angle_wrap
    rw [if_pos (by linarith)]
  rw [h10, h10b]
  intro h
  have := Real.pi_pos
  linarith

/-- Claim C7 (confirmed): the EKF deterministic motion model computes exactly
the same pose as `tcomp`, including the wrapped heading. -/
theorem ekf_motion_model_eq_tcomp (x u : ℝ × ℝ × ℝ) (dt : ℝ) :
    EKF.motion_model x u dt = tcomp x u dt := by
  unfold EKF.motion_model tcomp
  simp only [Prod.mk.injEq]
  refine ⟨by ring, by ring, ?_⟩
  congr 1
  ring

/-- Claim C3 (code bug): the particle-filter motion model does not wrap the
integrated heading.  At `x = (0,0,0)`, `u = (0,0,4)`, `dt = 1` and a zero noise
draw, the returned heading is `4`, which exceeds `π`. -/
theorem pf_motion_model_heading_unwrapped :
    (PF.motion_model (0, 0, 0) (0, 0, 4) 1 (0, 0, 0)).2.2 = 4 ∧
    ¬ (PF.motion_model (0, 0, 0) (0, 0, 4) 1 (0, 0, 0)).2.2 ≤ Real.pi := by
  have hpos := Real.pi_pos
  have hlt : Real.pi < 3.15 := Real.pi_lt_d2
  have hw : (PF.motion_model (0, 0, 0) (0, 0, 4) 1 (0, 0, 0)).2.2 = 4 := by
    show angle_wrap 0 + (4 + 0) * 1 = 4
    rw [angle_wrap_fix (by linarith) (by linarith)]
    ring
  exact ⟨hw, by rw [hw]; intro h; linarith⟩

/-- Claim C9 (corrected): when no observation is present the weighting loop is
skipped but the normalization still runs; the weight vector is returned
unchanged whenever it already sums to 1. -/
theorem pf_no_obs_weights_unchanged (REst : Matrix (Fin 2) (Fin 2) ℝ)
    (iFeature : ℕ) (Map : ℕ → ℝ × ℝ) (xParticles : List (ℝ × ℝ × ℝ))
    (wp : List ℝ) (hsum : wp.sum = 1) :
    PF.weighting_step REst none iFeature Map xParticles wp = wp := by
  unfold PF.weighting_step
  simp [hsum]

/-- Claim C9, witness: the corrected statement at `wp = [1/2, 1/2]`. -/
theorem pf_no_obs_weights_unchanged_witness :
    PF.weighting_step 1 none 0 (fun _ => (0, 0)) [] [1/2, 1/2] = [1/2, 1/2] :=
  pf_no_obs_weights_unchanged 1 0 (fun _ => (0, 0)) [] [1/2, 1/2] (by norm_num)

/-- Claim C9, counterexample to the original statement: a weight vector that
does not sum to 1 (reachable, e.g., as the output of
`reallocation_resampling`) is altered by the unconditional normalization even
though no observation is present. -/
theorem pf_no_obs_weights_unchanged_cex :
    PF.weighting_step 1 none 0 (fun _ => (0, 0)) [] [3/5, 1/2] ≠ [3/5, 1/2] := by
  unfold PF.weighting_step
  norm_num

/-- Claim C5 (code bug): the normalization of the particle weights divides by
their sum with no guard: if every weight has collapsed to `0`, the output is
the degenerate all-zero vector (NaNs in floating point), not a defined
fallback such as uniform weights. -/
theorem pf_weight_collapse_no_fallback :
    PF.weighting_step 1 (some (10, 0)) 0 (fun _ => (0, 0))
      [(0, 0, 0), (1, 0, 0)] [0, 0] = [0, 0] ∧
    ([0, 0] : List ℝ) ≠ [1/2, 1/2] := by
  constructor
  · unfold PF.weighting_step
    norm_num
  · intro h
    have := List.head_eq_of_cons_eq h
    norm_num at this

/-- Claim C10 (confirmed): with a map of `M ≥ 2` landmarks, the observed
landmark index drawn by `np.random.randint(0, M-1)` is at most `M-2`; the last
landmark (index `M-1`) is never selected, since the upper bound is exclusive. -/
theorem get_observation_skips_last (M draw : ℕ) (hM : 2 ≤ M) :
    get_observation_iFeature M draw ≤ M - 2 ∧
    get_observation_iFeature M draw ≠ M - 1 := by
  have h : get_observation_iFeature M draw < M - 1 := by
    show 0 + draw % (M - 1 - 0) < M - 1
    simp only [Nat.sub_zero, Nat.zero_add]
    exact Nat.mod_lt draw (by omega)
  omega

/-- Claim C10, witness: `M = 5` is the `nLandmarks` of `TP3`, raw draw `7`. -/
theorem get_observation_skips_last_witness :
    get_observation_iFeature 5 7 ≤ 3 ∧ get_observation_iFeature 5 7 ≠ 4 :=
  get_observation_skips_last 5 7 (by norm_num)

/-- For nonnegative entries, the sum of squares is at most the square of the
sum. -/
theorem list_sum_sq_le_sq_sum : ∀ (l : List ℚ), (∀ x ∈ l, 0 ≤ x) →
    (l.map (fun w => w ^ 2)).sum ≤ l.sum ^ 2
  | [], _ => by simp
  | x :: xs, h => by
    have hx : 0 ≤ x := h x (List.mem_cons_self x xs)
    have hxs : ∀ y ∈ xs, 0 ≤ y := fun y hy => h y (List.mem_cons_of_mem x hy)
    have hsum : 0 ≤ xs.sum := List.sum_nonneg hxs
    have ih := list_sum_sq_le_sq_sum xs hxs
    simp only [List.map_cons, List.sum_cons]
    nlinarith [mul_nonneg hx hsum]

/-- Cauchy–Schwarz for list sums: the square of the sum is at most the length
times the sum of squares. -/
theorem list_sq_sum_le_card_mul_sum_sq : ∀ (l : List ℚ),
    l.sum ^ 2 ≤ (l.length : ℚ) * (l.map (fun w => w ^ 2)).sum
  | [] => by simp
  | x :: xs => by
    have ih := list_sq_sum_le_card_mul_sum_sq xs
    have hQ : 0 ≤ (xs.map (fun w => w ^ 2)).sum := by
      refine List.sum_nonneg ?_
      intro y hy
      obtain ⟨w, _, rfl⟩ := List.mem_map.mp hy
      exact sq_nonneg w
    have hn : (0 : ℚ) ≤ (xs.length : ℚ) := Nat.cast_nonneg _
    simp only [List.map_cons, List.sum_cons, List.length_cons]
    push_cast
    rcases List.eq_nil_or_concat xs with rfl | hne
    · simp
    · have hn1 : (1 : ℚ) ≤ (xs.length : ℚ) := by
        have : xs ≠ [] := by rcases hne with ⟨l, a, rfl⟩; simp
        have : 0 < xs.length := List.length_pos.mpr this
        exact_mod_cast this
      nlinarith [sq_nonneg ((xs.length : ℚ) * x - xs.sum), ih, hQ, hn1,
        mul_nonneg hn (sub_nonneg.mpr ih)]

/-- Claim C6 (confirmed): for a normalized weight vector of length `N`, the
effective sample size lies in `[1, N]`, and the main loop resamples (with
`reallocation_resampling`) if and only if `Neff < N * theta_eff`. -/
theorem pf_neff_range_and_trigger {α : Type} [Inhabited α] (theta_eff : ℚ)
    (N : ℕ) (xParticles : List α) (wp : List ℚ) (us : ℕ → ℚ) (pads : ℕ → ℕ)
    (hN : 0 < N) (hlen : wp.length = N) (hnn : ∀ w ∈ wp, 0 ≤ w)
    (hsum : wp.sum = 1) :
    1 ≤ PF.Neff wp ∧ PF.Neff wp ≤ (N : ℚ) ∧
    (PF.Neff wp < N * theta_eff →
      PF.resample_step theta_eff N xParticles wp us pads
        = PF.reallocation_resampling N xParticles wp us pads) ∧
    (¬ PF.Neff wp < N * theta_eff →
      PF.resample_step theta_eff N xParticles wp us pads = (xParticles, wp)) := by
  have hq1 : (wp.map (fun w => w ^ 2)).sum ≤ 1 := by
    have := list_sum_sq_le_sq_sum wp hnn
    rw [hsum] at this
    simpa using this
  have hq2 : 1 ≤ (N : ℚ) * (wp.map (fun w => w ^ 2)).sum := by
    have := list_sq_sum_le_card_mul_sum_sq wp
    rw [hsum, hlen] at this
    simpa using this
  have hNq : (0 : ℚ) < N := by exact_mod_cast hN
  have hqpos : 0 < (wp.map (fun w => w ^ 2)).sum := by nlinarith
  refine ⟨?_, ?_, ?_, ?_⟩
  · rw [PF.Neff, le_div_iff₀ hqpos, one_mul]
    exact hq1
  · rw [PF.Neff, div_le_iff₀ hqpos]
    linarith
  · intro h
    rw [PF.resample_step, if_pos h]
  · intro h
    rw [PF.resample_step, if_neg h]

/-- Claim C6, witness: `N = 2` uniform weights, threshold `1/10`. -/
theorem pf_neff_range_and_trigger_witness :
    1 ≤ PF.Neff [1/2, 1/2] ∧ PF.Neff [1/2, 1/2] ≤ ((2 : ℕ) : ℚ) ∧
    (PF.Neff [1/2, 1/2] < (2 : ℕ) * (1/10 : ℚ) →
      PF.resample_step (1/10) 2 [(0 : ℚ), 0] [1/2, 1/2] (fun _ => 0) (fun _ => 0)
        = PF.reallocation_resampling 2 [(0 : ℚ), 0] [1/2, 1/2] (fun _ => 0) (fun _ => 0)) ∧
    (¬ PF.Neff [1/2, 1/2] < (2 : ℕ) * (1/10 : ℚ) →
      PF.resample_step (1/10) 2 [(0 : ℚ), 0] [1/2, 1/2] (fun _ => 0) (fun _ => 0)
        = ([(0 : ℚ), 0], [1/2, 1/2])) :=
  pf_neff_range_and_trigger (1/10) 2 [(0 : ℚ), 0] [1/2, 1/2] (fun _ => 0)
    (fun _ => 0) (by norm_num) (by norm_num)
    (by
      intro w hw
      simp only [List.mem_cons, List.not_mem_nil, or_false] at hw
      rcases hw with rfl | rfl <;> norm_num)
    (by norm_num)

/-- `cumsum` preserves length. -/
theorem pf_cumsum_length : ∀ (l : List ℚ) (acc : ℚ),
    (PF.cumsum acc l).length = l.length
  | [], _ => rfl
  | x :: xs, acc => by
    simp only [PF.cumsum, List.length_cons, pf_cumsum_length xs]

/-- The last entry of `cumsum acc l` is `acc` plus the total sum. -/
theorem pf_cumsum_get_last : ∀ (l : List ℚ) (acc : ℚ), l ≠ [] →
    (PF.cumsum acc l).get? (l.length - 1) = some (acc + l.sum)
  | [], _, h => absurd rfl h
  | x :: xs, acc, _ => by
    rcases List.eq_nil_or_concat xs with rfl | hne
    · simp [PF.cumsum]
    · have hxs : xs ≠ [] := by rcases hne with ⟨l, a, rfl⟩; simp
      have ih := pf_cumsum_get_last xs (acc + x) hxs
      have hpos : 0 < xs.length := List.length_pos.mpr hxs
      have hlen : (x :: xs).length - 1 = (xs.length - 1) + 1 := by
        simp only [List.length_cons]
        omega
      rw [show PF.cumsum acc (x :: xs) = (acc + x) :: PF.cumsum (acc + x) xs from rfl,
        hlen, List.get?_cons_succ, ih, List.sum_cons]
      rw [add_assoc]

/-- An entry found by `get?` beyond position `n` survives `drop n`. -/
theorem mem_drop_of_get? {α : Type} (l : List α) (i n : ℕ) (a : α)
    (hn : n ≤ i) (h : l.get? i = some a) : a ∈ l.drop n := by
  have h2 : (l.drop n).get? (i - n) = some a := by
    rw [List.get?_drop]
    rwa [show n + (i - n) = i by omega]
  exact List.get?_mem h2

/-- The `while` search succeeds as soon as some entry of the suffix reaches
the target, and the returned absolute index stays within the suffix. -/
theorem pf_walkFrom_some (target : ℚ) : ∀ (l : List ℚ) (ind : ℕ),
    (∃ c ∈ l, target ≤ c) →
    ∃ j, PF.walkFrom target l ind = some j ∧ ind ≤ j ∧ j < ind + l.length
  | [], _, h => by simp at h
  | c :: rest, ind, h => by
    by_cases hc : target > c
    · have hrest : ∃ d ∈ rest, target ≤ d := by
        rcases h with ⟨d, hd, hdle⟩
        rcases List.mem_cons.mp hd with rfl | hd2
        · exact absurd hdle (not_le.mpr hc)
        · exact ⟨d, hd2, hdle⟩
      obtain ⟨j, hj, hij, hjlt⟩ := pf_walkFrom_some target rest (ind + 1) hrest
      refine ⟨j, ?_, by omega, ?_⟩
      · simp only [PF.walkFrom, if_pos hc]
        exact hj
      · simp only [List.length_cons]
        omega
    · refine ⟨ind, ?_, le_refl _, ?_⟩
      · simp only [PF.walkFrom, if_neg hc]
      · simp only [List.length_cons]
        omega

/-- If the cumulative-weight list ends in `1` and every target is below `1`,
the index-building loop of `re_sampling` succeeds, returns one index per
target, and only in-range indices. -/
theorem pf_buildIndexes_some (w_cum : List ℚ)
    (hlast : w_cum.get? (w_cum.length - 1) = some 1) :
    ∀ (ts : List ℚ) (ind : ℕ), ind < w_cum.length → (∀ t ∈ ts, t < 1) →
    ∃ idxs, PF.buildIndexes w_cum ts ind = some idxs ∧
      idxs.length = ts.length ∧ ∀ i ∈ idxs, i < w_cum.length
  | [], ind, _, _ => ⟨[], rfl, rfl, by simp⟩
  | t :: ts, ind, hind, hts => by
    have ht : t < 1 := hts t (List.mem_cons_self _ _)
    have hmem : (1 : ℚ) ∈ w_cum.drop ind :=
      mem_drop_of_get? w_cum (w_cum.length - 1) ind 1 (by omega) hlast
    obtain ⟨j, hj, hij, hjlt⟩ :=
      pf_walkFrom_some t (w_cum.drop ind) ind ⟨1, hmem, le_of_lt ht⟩
    have hjlen : j < w_cum.length := by
      have hd := List.length_drop ind w_cum
      omega
    obtain ⟨idxs, hb, hblen, hbmem⟩ := pf_buildIndexes_some w_cum hlast ts j hjlen
      (fun u hu => hts u (List.mem_cons_of_mem _ hu))
    refine ⟨j :: idxs, ?_, by simp [hblen], ?_⟩
    · simp only [PF.buildIndexes, hj, hb, Option.map_some']
    · intro i hi
      rcases List.mem_cons.mp hi with rfl | hi2
      · exact hjlen
      · exact hbmem i hi2

/-- Selecting along in-range indices succeeds and preserves the count. -/
theorem pf_selectAll_some {α : Type} (px : List α) : ∀ (idxs : List ℕ),
    (∀ i ∈ idxs, i < px.length) →
    ∃ sel, PF.selectAll px idxs = some sel ∧ sel.length = idxs.length
  | [], _ => ⟨[], rfl, rfl⟩
  | i :: is, h => by
    have hi : i < px.length := h i (List.mem_cons_self _ _)
    have hp : px.get? i = some (px.get ⟨i, hi⟩) := List.get?_eq_get hi
    obtain ⟨sel, hs, hslen⟩ := pf_selectAll_some px is
      (fun j hj => h j (List.mem_cons_of_mem _ hj))
    refine ⟨px.get ⟨i, hi⟩ :: sel, ?_, by simp [hslen]⟩
    simp only [PF.selectAll, hp, hs, Option.map_some']

/-- Every stratified target `ip/N + r` stays below `1` when `r < 1/N`. -/
theorem pf_targets_lt_one (N : ℕ) (r : ℚ) (hN : 0 < N) (hr : r < 1 / N) :
    ∀ t ∈ (List.range N).map (fun (ip : ℕ) => (ip : ℚ) / N + r), t < 1 := by
  intro t ht
  obtain ⟨ip, hip, rfl⟩ := List.mem_map.mp ht
  have hipN := List.mem_range.mp hip
  have hNq : (0 : ℚ) < N := by exact_mod_cast hN
  have h1 : (ip : ℚ) ≤ (N : ℚ) - 1 := by
    have : (ip : ℚ) + 1 ≤ N := by exact_mod_cast hipN
    linarith
  have h2 : (ip : ℚ) / N ≤ ((N : ℚ) - 1) / N := by gcongr
  have h3 : ((N : ℚ) - 1) / N + 1 / N = 1 := by field_simp
  linarith

/-- Claim C1 (corrected): on a valid input (length-`N` particle and weight
lists, weights nonnegative and summing to 1, offset draw in `[0, 1/N)`),
low-variance `re_sampling` succeeds and returns exactly `N` particles and `N`
weights summing to 1; `reallocation_resampling` returns equally many particles
and weights, but only at least `N` of them. -/
theorem resampling_output_sizes {α : Type} [Inhabited α] (N : ℕ)
    (px : List α) (pw : List ℚ) (r : ℚ)
    (particles : List α) (weights : List ℚ) (us : ℕ → ℚ) (pads : ℕ → ℕ)
    (hN : 0 < N) (hpw : pw.length = N) (hpx : px.length = N)
    (hnn : ∀ w ∈ pw, 0 ≤ w) (hsum : pw.sum = 1) (hr0 : 0 ≤ r) (hr : r < 1 / N) :
    (∃ px1 pw1, PF.re_sampling N px pw r = some (px1, pw1) ∧
      px1.length = N ∧ pw1.length = N ∧ pw1.sum = 1) ∧
    N ≤ (PF.reallocation_resampling N particles weights us pads).1.length ∧
    (PF.reallocation_resampling N particles weights us pads).1.length =
      (PF.reallocation_resampling N particles weights us pads).2.length := by
  constructor
  · have hpw0 : pw ≠ [] := by
      intro h
      rw [h] at hpw
      simp at hpw
      omega
    have hwlen : (PF.cumsum 0 pw).length = N := by
      rw [pf_cumsum_length]
      exact hpw
    have hlast : (PF.cumsum 0 pw).get? ((PF.cumsum 0 pw).length - 1) = some 1 := by
      rw [pf_cumsum_length, pf_cumsum_get_last pw 0 hpw0, hsum, zero_add]
    have hts := pf_targets_lt_one N r hN hr
    have htlen : ((List.range N).map (fun (ip : ℕ) => (ip : ℚ) / N + r)).length = N := by
      simp
    obtain ⟨idxs, hb, hblen, hbmem⟩ := pf_buildIndexes_some (PF.cumsum 0 pw) hlast
      ((List.range N).map (fun (ip : ℕ) => (ip : ℚ) / N + r)) 0
      (by rw [hwlen]; exact hN) hts
    obtain ⟨sel, hs, hslen⟩ := pf_selectAll_some px idxs
      (fun i hi => by rw [hpx, ← hwlen]; exact hbmem i hi)
    refine ⟨sel, List.replicate pw.length (1 / (pw.length : ℚ)), ?_, ?_, ?_, ?_⟩
    · simp only [PF.re_sampling, hb, hs]
    · rw [hslen, hblen, htlen]
    · simp [hpw]
    · rw [List.sum_replicate, hpw, nsmul_eq_mul, mul_one_div,
        div_self (by exact_mod_cast hN.ne' : (N : ℚ) ≠ 0)]
  · constructor
    · simp only [PF.reallocation_resampling]
      rw [List.length_map, List.length_append, List.length_map, List.length_range]
      omega
    · simp only [PF.reallocation_resampling]
      rw [List.length_map, List.length_map]

/-- Claim C1, witness: the corrected statement at `N = 2`, uniform weights,
stratification offset `1/4`. -/
theorem resampling_output_sizes_witness :
    (∃ px1 pw1, PF.re_sampling 2 [(5 : ℚ), 7] [1/2, 1/2] (1/4) = some (px1, pw1) ∧
      px1.length = 2 ∧ pw1.length = 2 ∧ pw1.sum = 1) ∧
    2 ≤ (PF.reallocation_resampling 2 [(5 : ℚ), 7] [1/2, 1/2]
      (fun _ => 0) (fun _ => 0)).1.length ∧
    (PF.reallocation_resampling 2 [(5 : ℚ), 7] [1/2, 1/2]
      (fun _ => 0) (fun _ => 0)).1.length =
    (PF.reallocation_resampling 2 [(5 : ℚ), 7] [1/2, 1/2]
      (fun _ => 0) (fun _ => 0)).2.length :=
  resampling_output_sizes 2 [(5 : ℚ), 7] [1/2, 1/2] (1/4) [(5 : ℚ), 7]
    [1/2, 1/2] (fun _ => 0) (fun _ => 0) (by norm_num) (by norm_num) (by norm_num)
    (by
      intro w hw
      simp only [List.mem_cons, List.not_mem_nil, or_false] at hw
      rcases hw with rfl | rfl <;> norm_num)
    (by norm_num) (by norm_num) (by norm_num)

/-- Claim C1, counterexample to the original statement: on the valid
normalized input `weights = [2/3, 1/6, 1/6]` with `N = 3` (and light-particle
draws `1/10 < 1/6`, so both light particles are kept), the heavy particle is
copied `⌊3·(2/3)⌋ = 2` times, yielding 4 particles — not 3 — whose weights
`[1/3, 1/3, 1/3, 1/3]` sum to `4/3`, not 1. -/
theorem resampling_output_sizes_cex :
    ([2/3, 1/6, 1/6] : List ℚ).sum = 1 ∧
    (∀ w ∈ ([2/3, 1/6, 1/6] : List ℚ), 0 ≤ w) ∧
    (PF.reallocation_resampling 3 [(10 : ℚ), 20, 30] [2/3, 1/6, 1/6]
      (fun _ => 1/10) (fun _ => 0)).1.length = 4 ∧
    (PF.reallocation_resampling 3 [(10 : ℚ), 20, 30] [2/3, 1/6, 1/6]
      (fun _ => 1/10) (fun _ => 0)).2.sum = 4/3 := by
  refine ⟨by norm_num, ?_, ?_, ?_⟩
  · intro w hw
    simp only [List.mem_cons, List.not_mem_nil, or_false] at hw
    rcases hw with rfl | rfl | rfl <;> norm_num
  · norm_num [PF.reallocation_resampling, List.enum, List.enumFrom]
    omega
  · norm_num [PF.reallocation_resampling, List.enum, List.enumFrom]
    rw [show Int.toNat 2 = 2 from rfl]
    norm_num

/-- Sums of positive semi-definite matrices are positive semi-definite. -/
theorem matPSD_add {n : ℕ} {A B : Matrix (Fin n) (Fin n) ℚ}
    (hA : matPSD A) (hB : matPSD B) : matPSD (A + B) := by
  intro v
  have h1 := hA v
  have h2 := hB v
  rw [Matrix.add_mulVec, Matrix.dotProduct_add]
  linarith

/-- Congruence preserves positive semi-definiteness. -/
theorem matPSD_conj {m n : ℕ} {M : Matrix (Fin n) (Fin n) ℚ} (hM : matPSD M)
    (B : Matrix (Fin m) (Fin n) ℚ) : matPSD (B * M * B.transpose) := by
  intro v
  have h1 : (B * M * B.transpose).mulVec v
      = B.mulVec (M.mulVec (B.transpose.mulVec v)) := by
    rw [Matrix.mulVec_mulVec, Matrix.mulVec_mulVec]
  rw [h1, Matrix.dotProduct_mulVec, ← Matrix.mulVec_transpose]
  exact hM _

/-- The identity matrix is positive semi-definite. -/
theorem matPSD_one {n : ℕ} : matPSD (1 : Matrix (Fin n) (Fin n) ℚ) := by
  intro v
  rw [Matrix.one_mulVec]
  exact Finset.sum_nonneg fun i _ => mul_self_nonneg (v i)

/-- `inv2` is a left inverse on nonsingular 2×2 matrices. -/
theorem inv2_mul_self {S : Matrix (Fin 2) (Fin 2) ℚ} (h : S.det ≠ 0) :
    inv2 S * S = 1 := by
  have hd : S 0 0 * S 1 1 - S 0 1 * S 1 0 ≠ 0 := by
    rwa [Matrix.det_fin_two] at h
  ext i j
  fin_cases i <;> fin_cases j <;>
    · simp [inv2, Matrix.mul_apply, Fin.sum_univ_two, Matrix.det_fin_two,
        Matrix.one_apply]
      field_simp
      ring

/-- A congruence `B M Bᵀ` of a symmetric matrix is symmetric. -/
theorem conj_symm {m n : ℕ} (B : Matrix (Fin m) (Fin n) ℚ)
    (M : Matrix (Fin n) (Fin n) ℚ) (hM : M.transpose = M) :
    (B * M * B.transpose).transpose = B * M * B.transpose := by
  rw [Matrix.transpose_mul, Matrix.transpose_mul, Matrix.transpose_transpose,
    hM, Matrix.mul_assoc]

/-- Joseph-form identity: for the exact Kalman gain (any `K` with
`K S = PPred Hᵀ`), the updated covariance `(I - K H) PPred` equals the
manifestly positive semi-definite sum
`(I - K H) PPred (I - K H)ᵀ + K REst Kᵀ`. -/
theorem joseph_form (PPred : Matrix (Fin 3) (Fin 3) ℚ)
    (H : Matrix (Fin 2) (Fin 3) ℚ) (REst : Matrix (Fin 2) (Fin 2) ℚ)
    (K : Matrix (Fin 3) (Fin 2) ℚ)
    (hKS : K * (REst + H * PPred * H.transpose) = PPred * H.transpose) :
    (1 - K * H) * PPred =
      (1 - K * H) * PPred * (1 - K * H).transpose + K * REst * K.transpose := by
  have hAH : (1 - K * H) * PPred * H.transpose = K * REst := by
    have h1 : (1 - K * H) * PPred * H.transpose
        = PPred * H.transpose - K * (H * PPred * H.transpose) := by
      rw [Matrix.sub_mul, Matrix.sub_mul, Matrix.one_mul,
        Matrix.mul_assoc K H PPred, Matrix.mul_assoc K (H * PPred) H.transpose]
    rw [h1, ← hKS, Matrix.mul_add]
    abel
  have hTr : (1 - K * H).transpose
      = 1 - H.transpose * K.transpose := by
    rw [Matrix.transpose_sub, Matrix.transpose_one, Matrix.transpose_mul]
  rw [hTr, Matrix.mul_sub, Matrix.mul_one, ← Matrix.mul_assoc, hAH]
  abel

/-- Claim C4 (confirmed): whenever the innovation covariance is invertible and
the inputs are valid (symmetric PSD predicted covariance, symmetric PSD
assumed observation noise), the EKF measurement update succeeds and the
resulting `PEst` is symmetric — enforced by the explicit averaging with its
transpose — and positive semi-definite. -/
theorem ekf_cov_update_symm_psd (PPred : Matrix (Fin 3) (Fin 3) ℚ)
    (H : Matrix (Fin 2) (Fin 3) ℚ) (REst : Matrix (Fin 2) (Fin 2) ℚ)
    (hPsymm : PPred.transpose = PPred) (hPpsd : matPSD PPred)
    (hRsymm : REst.transpose = REst) (hRpsd : matPSD REst)
    (hdet : (REst + H * PPred * H.transpose).det ≠ 0) :
    ∃ PEst, EKF.cov_update PPred H REst = some PEst ∧
      PEst.transpose = PEst ∧ matPSD PEst := by
  obtain ⟨K, hKdef⟩ :
      ∃ K, K = PPred * H.transpose * inv2 (REst + H * PPred * H.transpose) :=
    ⟨_, rfl⟩
  have hKS : K * (REst + H * PPred * H.transpose) = PPred * H.transpose := by
    rw [hKdef, Matrix.mul_assoc, inv2_mul_self hdet, Matrix.mul_one]
  have hJ := joseph_form PPred H REst K hKS
  have hP1symm : ((1 - K * H) * PPred).transpose = (1 - K * H) * PPred := by
    rw [hJ, Matrix.transpose_add, conj_symm _ _ hPsymm, conj_symm _ _ hRsymm]
  have hP1psd : matPSD ((1 - K * H) * PPred) := by
    rw [hJ]
    exact matPSD_add (matPSD_conj hPpsd (1 - K * H)) (matPSD_conj hRpsd K)
  refine ⟨(1 - K * H) * PPred, ?_, hP1symm, hP1psd⟩
  simp only [EKF.cov_update]
  rw [if_neg hdet, ← hKdef, hP1symm, ← two_smul ℚ ((1 - K * H) * PPred),
    smul_smul]
  norm_num

/-- Claim C4, witness: identity predicted covariance, zero observation
Jacobian, identity observation noise. -/
theorem ekf_cov_update_symm_psd_witness :
    ∃ PEst, EKF.cov_update 1 0 1 = some PEst ∧
      PEst.transpose = PEst ∧ matPSD PEst :=
  ekf_cov_update_symm_psd 1 0 1 Matrix.transpose_one matPSD_one
    Matrix.transpose_one matPSD_one (by simp)
